import Mathlib

set_option maxRecDepth 100000

/-!
Shallow embedding of `rslib/src/media/files.rs` (Anki's media file store):
filename normalization, content-hash based unique writes, hash-suffix
collision naming, ingestion of remote files, and the single-file reader.

Filenames are modelled as `List Char` (the sequence of Unicode scalar
values of the Rust `str`); byte lengths are computed from the UTF-8 size
of each character.  File contents are `List Nat` (one entry per byte).
The media folder is a partial map from filename to contents; `fs::write`
always succeeds in the model, and "file not found" is the only I/O
failure the model filesystem itself produces (other error kinds are
modelled as explicit inputs where a claim is about them).
-/

namespace MediaFiles

/-- A filename: the character sequence of a Rust `&str`. -/
abbrev Filename := List Char

/-- Number of bytes of the UTF-8 encoding of one character
(Rust `char::len_utf8`). -/
def charBytes (c : Char) : Nat :=
  if c.toNat < 128 then 1
  else if c.toNat < 2048 then 2
  else if c.toNat < 65536 then 3
  else 4

/-- UTF-8 byte length of a filename (Rust `str::len`). -/
def utf8Len (s : Filename) : Nat := (s.map charBytes).sum

/-- `MAX_FILENAME_LENGTH` from the source. -/
def MAX_FILENAME_LENGTH : Nat := 120

/-- Rust `str::is_char_boundary`: byte index `i` is a character boundary,
i.e. the UTF-8 length of some character-prefix of `s`. -/
def isCharBoundary : Filename → Nat → Bool
  | _, 0 => true
  | [], _ + 1 => false
  | c :: cs, i + 1 =>
    if charBytes c ≤ i + 1 then isCharBoundary cs (i + 1 - charBytes c)
    else false

/-- The byte slice `&s[..i]` for a byte index `i`, as the characters whose
encodings fit entirely below `i`. Used only at character boundaries. -/
def takeBytes : Filename → Nat → Filename
  | _, 0 => []
  | [], _ + 1 => []
  | c :: cs, i + 1 =>
    if charBytes c ≤ i + 1 then c :: takeBytes cs (i + 1 - charBytes c)
    else []

/-- The `while !s.is_char_boundary(max) { max -= 1 }` loop of
`truncate_to_char_boundary`: largest boundary `≤ max` (0 is a boundary). -/
def backOffToBoundary (s : Filename) : Nat → Nat
  | 0 => 0
  | i + 1 => if isCharBoundary s (i + 1) then i + 1 else backOffToBoundary s i

/-- `truncate_to_char_boundary` from the source: trim a string on a valid
UTF-8 boundary. -/
def truncate_to_char_boundary (s : Filename) (max : Nat) : Filename :=
  if max ≥ utf8Len s then s
  else takeBytes s (backOffToBoundary s max)

/-- The semantics of `fname.rsplitn(2, '.')` as used in
`split_and_truncate_filename`: `some (stem, ext)` splits at the LAST dot;
`none` when the name has no dot. -/
def splitAtLastDot : Filename → Option (Filename × Filename)
  | [] => none
  | c :: cs =>
    match splitAtLastDot cs with
    | some (st, ex) => some (c :: st, ex)
    | none => if c = '.' then some ([], cs) else none

/-- `split_and_truncate_filename` from the source: split filename into stem
and extension, and trim both so the resulting filename would be under
`max_bytes`. -/
def split_and_truncate_filename (fname : Filename) (maxBytes : Nat) :
    Filename × Filename :=
  let (stem, ext) :=
    match splitAtLastDot fname with
    | some (st, ex) => (st, ex)
    | none => (fname, ([] : Filename))
  -- cap extension to 10 bytes so stem_len can't be negative
  let ext := truncate_to_char_boundary ext 10
  -- cap stem, allowing for the .
  let stem := truncate_to_char_boundary stem (maxBytes - utf8Len ext - 1)
  (stem, ext)

/-- `truncate_filename` from the source: if filename is longer than
`max_bytes`, truncate it.  Note the reassembly via `format!` inserts the
dot even when the extension is empty. -/
def truncate_filename (fname : Filename) (maxBytes : Nat) : Filename :=
  if utf8Len fname ≤ maxBytes then fname
  else
    let (stem, ext) := split_and_truncate_filename fname maxBytes
    stem ++ '.' :: ext

/-- One lowercase hex digit (`hex` crate, lowercase alphabet). -/
def hexDigit (n : Nat) : Char :=
  if n < 10 then Char.ofNat (48 + n) else Char.ofNat (87 + n)

/-- `hex::encode`: two lowercase hex characters per byte. -/
def hexEncode (bs : List Nat) : Filename :=
  bs.flatMap fun b => [hexDigit (b / 16 % 16), hexDigit (b % 16)]

/-- `add_hash_suffix_to_file_stem` from the source: convert `foo.jpg` into
`foo-<40 hex chars>.jpg`.  The source comment claims the appendix is
"20 bytes plus the hyphen" but `hex::encode` emits 40 characters. -/
def add_hash_suffix_to_file_stem (fname : Filename) (hash : List Nat) :
    Filename :=
  let maxLen := MAX_FILENAME_LENGTH - 20 - 1
  let (stem, ext) := split_and_truncate_filename fname maxLen
  stem ++ '-' :: (hexEncode hash ++ '.' :: ext)

/-! ### SHA-1 (the `sha1` crate used by `sha1_of_data` / `sha1_of_file`)

The full SHA-1 algorithm over byte lists, with 32-bit words as `Nat`
reduced modulo `2^32`. -/

/-- Reduce to a 32-bit word. -/
def w32 (n : Nat) : Nat := n % 4294967296

/-- 32-bit left rotation of a word already `< 2^32`. -/
def rotl32 (k x : Nat) : Nat := w32 (x % 4294967296 * 2 ^ k) + x % 4294967296 / 2 ^ (32 - k)

/-- SHA-1 round function (choose / parity / majority). -/
def sha1F (i b c d : Nat) : Nat :=
  if i < 20 then (b &&& c) ||| ((4294967295 - b % 4294967296) &&& d)
  else if i < 40 then b ^^^ c ^^^ d
  else if i < 60 then (b &&& c) ||| (b &&& d) ||| (c &&& d)
  else b ^^^ c ^^^ d

/-- SHA-1 round constants. -/
def sha1K (i : Nat) : Nat :=
  if i < 20 then 0x5A827999
  else if i < 40 then 0x6ED9EBA1
  else if i < 60 then 0x8F1BBCDC
  else 0xCA62C1D6

/-- Big-endian 32-bit words from a byte list. -/
def bytesToWords : List Nat → List Nat
  | b0 :: b1 :: b2 :: b3 :: rest =>
    (b0 * 16777216 + b1 * 65536 + b2 * 256 + b3) :: bytesToWords rest
  | _ => []

/-- Message-schedule expansion: append `fuel` further words
`w[i] = rotl1 (w[i-3] xor w[i-8] xor w[i-14] xor w[i-16])`. -/
def expandWords (ws : List Nat) : Nat → List Nat
  | 0 => ws
  | fuel + 1 =>
    let i := ws.length
    let w := rotl32 1 (ws.getD (i - 3) 0 ^^^ ws.getD (i - 8) 0 ^^^
      ws.getD (i - 14) 0 ^^^ ws.getD (i - 16) 0)
    expandWords (ws ++ [w]) fuel

/-- One SHA-1 round on the five-word state. -/
def sha1Step (ws : List Nat) (st : Nat × Nat × Nat × Nat × Nat) (i : Nat) :
    Nat × Nat × Nat × Nat × Nat :=
  let (a, b, c, d, e) := st
  let temp := w32 (rotl32 5 a + sha1F i b c d + e + sha1K i + ws.getD i 0)
  (temp, a, rotl32 30 b, c, d)

/-- Compress one 64-byte block into the running state. -/
def sha1Compress (h : Nat × Nat × Nat × Nat × Nat) (block : List Nat) :
    Nat × Nat × Nat × Nat × Nat :=
  let ws := expandWords (bytesToWords block) 64
  let (a, b, c, d, e) := (List.range 80).foldl (sha1Step ws) h
  let (h0, h1, h2, h3, h4) := h
  (w32 (h0 + a), w32 (h1 + b), w32 (h2 + c), w32 (h3 + d), w32 (h4 + e))

/-- Split a byte list into its consecutive 64-byte chunks. -/
def chunks64 (l : List Nat) : List (List Nat) :=
  (List.range ((l.length + 63) / 64)).map fun i => ((l.drop (64 * i)).take 64)

/-- SHA-1 padding: `0x80`, zeros to 56 mod 64, then the 64-bit big-endian
bit length. -/
def padMessage (data : List Nat) : List Nat :=
  let bitLen := 8 * data.length
  data ++ 128 :: List.replicate ((119 - data.length % 64) % 64) 0 ++
    [bitLen / 2 ^ 56 % 256, bitLen / 2 ^ 48 % 256, bitLen / 2 ^ 40 % 256,
     bitLen / 2 ^ 32 % 256, bitLen / 2 ^ 24 % 256, bitLen / 2 ^ 16 % 256,
     bitLen / 2 ^ 8 % 256, bitLen % 256]

/-- Big-endian bytes of a 32-bit word. -/
def wordBytes (w : Nat) : List Nat :=
  [w / 16777216 % 256, w / 65536 % 256, w / 256 % 256, w % 256]

/-- The 20 digest bytes of a final SHA-1 state. -/
def digestBytes : Nat × Nat × Nat × Nat × Nat → List Nat
  | (h0, h1, h2, h3, h4) =>
    wordBytes h0 ++ wordBytes h1 ++ wordBytes h2 ++ wordBytes h3 ++ wordBytes h4

/-- `sha1_of_data` from the source: SHA-1 digest of a byte buffer. -/
def sha1_of_data (data : List Nat) : List Nat :=
  digestBytes ((chunks64 (padMessage data)).foldl sha1Compress
    (0x67452301, 0xEFCDAB89, 0x98BADCFE, 0x10325476, 0xC3D2E1F0))

/-- ASCII bytes of a string, for concrete file contents in examples. -/
def asciiBytes (s : String) : List Nat := s.toList.map Char.toNat

/-! ### Unicode NFC (the `unicode_normalization` crate)

Modelled from the spec: the crate itself is an external dependency, not
part of this repository, so canonical normalization is embedded by the
standard canonical decompose / reorder / compose algorithm over a
restricted character table.  The table covers the characters appearing in
this development: U+0300 COMBINING GRAVE ACCENT (combining class 230,
composing with `a` to U+00E0 `à`, which canonically decomposes back) —
these entries are the real Unicode 13 data.  Every other character is
treated as a starter with no decomposition and no composition, which
matches real Unicode for all ASCII characters.  Within an alphabet whose
combining classes are only 0 and 230, pairwise composition agrees with
the full blocking-aware algorithm. -/

/-- U+0300 COMBINING GRAVE ACCENT. -/
def graveAccent : Char := Char.ofNat 768

/-- U+00E0 LATIN SMALL LETTER A WITH GRAVE. -/
def aGrave : Char := Char.ofNat 224

/-- Canonical combining class (restricted table). -/
def ccc (c : Char) : Nat := if c = graveAccent then 230 else 0

/-- Canonical decomposition (restricted table). -/
def canonDecomp (c : Char) : Option (Char × Char) :=
  if c = aGrave then some ('a', graveAccent) else none

/-- Primary canonical composition (restricted table). -/
def canonComp (a b : Char) : Option Char :=
  if a = 'a' ∧ b = graveAccent then some aGrave else none

/-- Full canonical decomposition of one character. -/
def decompChar (c : Char) : List Char :=
  match canonDecomp c with
  | some (a, b) => [a, b]
  | none => [c]

/-- One bubble pass of the canonical-ordering step: swap adjacent
characters when a higher nonzero combining class precedes a lower one.
(Structural recursion on a fuel argument that starts at the list length,
which the pass never exhausts.) -/
def reorderPassF : Nat → List Char → List Char
  | 0, l => l
  | _, [] => []
  | _, [c] => [c]
  | fuel + 1, a :: b :: rest =>
    if ccc b != 0 && decide (ccc b < ccc a) then b :: reorderPassF fuel (a :: rest)
    else a :: reorderPassF fuel (b :: rest)

def reorderPass (l : List Char) : List Char := reorderPassF l.length l

/-- Canonical ordering: enough bubble passes to sort combining marks. -/
def reorder (s : List Char) : List Char := reorderPass^[s.length] s

/-- Canonical composition pass (pairwise; equivalent to the blocking-aware
algorithm on the restricted alphabet, see above).  Structural recursion on
a fuel argument that starts at the list length. -/
def composePassF : Nat → List Char → List Char
  | 0, l => l
  | _, [] => []
  | _, [c] => [c]
  | fuel + 1, a :: b :: rest =>
    match canonComp a b with
    | some d => composePassF fuel (d :: rest)
    | none => a :: composePassF fuel (b :: rest)

def composePass (l : List Char) : List Char := composePassF l.length l

/-- NFC normalization: decompose, canonically order, compose. -/
def nfc (s : List Char) : List Char :=
  composePass (reorder (s.flatMap decompChar))

/-- `unicode_normalization::is_nfc`: the string equals its own NFC form. -/
def is_nfc (s : List Char) : Bool := nfc s == s

/-! ### `normalize_filename` -/

/-- `disallowed_char` from the source: true if the character may cause
problems on one or more platforms. -/
def disallowed_char (c : Char) : Bool :=
  c ∈ ['[', ']', '<', '>', ':', '"', '/', '?', '*', '^', '\\', '|'] ||
    (c.toNat < 128 && (c.toNat < 32 || c.toNat == 127))

/-- The `WINDOWS_DEVICE_NAME` regex
`(?xi) ^ (CON|PRN|AUX|NUL|COM[1-9]|LPT[1-9]) (\.|$)`: on a match, return
the matched device name and the remainder of the string (which is empty
or starts with `.`). -/
def deviceNameMatch (s : Filename) : Option (Filename × Filename) :=
  let up3 := (s.take 3).map Char.toUpper
  let boundary3 : Bool := (s.drop 3).isEmpty || (s.drop 3).head? == some '.'
  let boundary4 : Bool := (s.drop 4).isEmpty || (s.drop 4).head? == some '.'
  let digit19 : Bool :=
    match (s.drop 3).head? with
    | some d => 49 ≤ d.toNat && d.toNat ≤ 57
    | none => false
  if (up3 == ['C', 'O', 'N'] || up3 == ['P', 'R', 'N'] ||
      up3 == ['A', 'U', 'X'] || up3 == ['N', 'U', 'L']) && boundary3 then
    some (s.take 3, s.drop 3)
  else if (up3 == ['C', 'O', 'M'] || up3 == ['L', 'P', 'T']) &&
      digit19 && boundary4 then
    some (s.take 4, s.drop 4)
  else none

/-- `normalize_filename` from the source, with the `Cow` state as a
boolean: the flag is true exactly when some step allocated a new string
(`Cow::Owned`).  Steps in source order: NFC if not already NFC; remove
disallowed characters if any; append `_` to a Windows device-name stem on
a regex match; truncate to 120 bytes if longer. -/
def nfcPass (s : Filename) : Filename × Bool :=
  if is_nfc s then (s, false) else (nfc s, true)

/-- The disallowed-character removal step (`str::replace` with a char
predicate removes every matching character; `Cow::Owned` iff any). -/
def stripPass (s : Filename) : Filename × Bool :=
  if s.any disallowed_char then (s.filter fun c => !disallowed_char c, true)
  else (s, false)

/-- The device-name escaping step: `replace_all` with the replacement
pattern group-1 underscore group-2, i.e. it inserts `_` after the matched
device name; `Cow::Owned` iff the regex matched. -/
def devicePass (s : Filename) : Filename × Bool :=
  match deviceNameMatch s with
  | some (name, rest) => (name ++ '_' :: rest, true)
  | none => (s, false)

/-- The truncation step; `truncate_filename` returns `Cow::Owned` iff the
name exceeds `max_bytes`. -/
def truncPass (s : Filename) : Filename × Bool :=
  if utf8Len s ≤ MAX_FILENAME_LENGTH then (s, false)
  else (truncate_filename s MAX_FILENAME_LENGTH, true)

def normalize_filename_cow (fname : Filename) : Filename × Bool :=
  let p1 := nfcPass fname
  let p2 := stripPass p1.1
  let p3 := devicePass p2.1
  let p4 := truncPass p3.1
  (p4.1, p1.2 || p2.2 || p3.2 || p4.2)

/-- `normalize_filename`, forgetting the `Cow` state. -/
def normalize_filename (fname : Filename) : Filename :=
  (normalize_filename_cow fname).1

/-! ### The media folder and the stateful operations -/

/-- The media folder: a partial map from filename to file contents. -/
abbrev Folder := Filename → Option (List Nat)

/-- `fs::write`: create or overwrite a file. -/
def fsWrite (f : Folder) (name : Filename) (data : List Nat) : Folder :=
  fun m => if m = name then some data else f m

/-- `existing_file_sha1` from the source: the SHA-1 of the file if it
exists, or `none`.  (The source converts the `NotFound` error of
`sha1_of_file` to `None` and propagates other I/O errors; the model
filesystem produces no other errors.) -/
def existing_file_sha1 (folder : Folder) (name : Filename) :
    Option (List Nat) :=
  (folder name).map sha1_of_data

/-- `add_data_to_folder_uniquely` from the source: write `desired_name`
into folder, renaming if an existing file has different content.  Returns
the updated folder and the used filename. -/
def add_data_to_folder_uniquely (folder : Folder) (desired_name : Filename)
    (data : List Nat) (sha1 : List Nat) : Folder × Filename :=
  let normalized_name := normalize_filename desired_name
  match existing_file_sha1 folder normalized_name with
  | none =>
    -- no file with that name exists yet
    (fsWrite folder normalized_name data, normalized_name)
  | some existing =>
    if existing = sha1 then
      -- existing file has same checksum, nothing to do
      (folder, normalized_name)
    else
      -- give it a unique name based on its hash
      let hashed_name := add_hash_suffix_to_file_stem normalized_name sha1
      (fsWrite folder hashed_name data, hashed_name)

/-- `AddedFile` from the source.  `mtime` is read back from the
filesystem clock, which the model does not track; it is recorded as 0. -/
structure AddedFile where
  fname : Filename
  sha1 : List Nat
  mtime : Int
  renamed_from : Option Filename
  deriving DecidableEq

/-- `add_file_from_ankiweb` from the source: add a file received from
AnkiWeb into the media folder.  If the filename is already valid
(`Cow::Borrowed`), write directly; otherwise go through
`add_data_to_folder_uniquely`. -/
def add_file_from_ankiweb (media_folder : Folder) (fname : Filename)
    (data : List Nat) : Folder × AddedFile :=
  let sha1 := sha1_of_data data
  let (normalized, changed) := normalize_filename_cow fname
  if changed then
    -- ankiweb sent us a non-normalized filename, so we'll rename it
    let (folder2, new_name) :=
      add_data_to_folder_uniquely media_folder fname data sha1
    (folder2, ⟨normalized, sha1, 0, some new_name⟩)
  else
    -- if the filename is already valid, we can write the file directly
    (fsWrite media_folder normalized data, ⟨normalized, sha1, 0, none⟩)

/-- The error kinds distinguished by the reader. -/
inductive IoErrorKind where
  | notFound
  | interrupted
  | otherError
  deriving DecidableEq

/-- The result of `fs::File::open` on the model filesystem: the file's
contents, or `NotFound`.  (Other error kinds are supplied directly to
`data_for_file_from` where a claim concerns them.) -/
def openFile (folder : Folder) (name : Filename) :
    Except IoErrorKind (List Nat) :=
  match folder name with
  | some d => Except.ok d
  | none => Except.error IoErrorKind.notFound

/-- The error-handling core of `data_for_file`, as a function of the
outcome of `fs::File::open`: `NotFound` becomes `Ok(None)`, any other
error propagates, and on success `read_to_end` yields the full
contents. -/
def data_for_file_from (openRes : Except IoErrorKind (List Nat)) :
    Except IoErrorKind (Option (List Nat)) :=
  match openRes with
  | Except.ok d => Except.ok (some d)
  | Except.error e =>
    if e = IoErrorKind.notFound then Except.ok none else Except.error e

/-- `data_for_file` from the source. -/
def data_for_file (media_folder : Folder) (fname : Filename) :
    Except IoErrorKind (Option (List Nat)) :=
  data_for_file_from (openFile media_folder fname)

/-! ### Lemmas: UTF-8 lengths and boundary truncation -/

theorem one_le_charBytes (c : Char) : 1 ≤ charBytes c := by
  unfold charBytes
  split
  · omega
  · split
    · omega
    · split <;> omega

theorem charBytes_le_four (c : Char) : charBytes c ≤ 4 := by
  unfold charBytes
  split
  · omega
  · split
    · omega
    · split <;> omega

theorem utf8Len_nil : utf8Len [] = 0 := rfl

theorem utf8Len_cons (c : Char) (s : Filename) :
    utf8Len (c :: s) = charBytes c + utf8Len s := by
  simp [utf8Len]

theorem utf8Len_append (a b : Filename) :
    utf8Len (a ++ b) = utf8Len a + utf8Len b := by
  simp [utf8Len]

theorem isCharBoundary_zero (s : Filename) : isCharBoundary s 0 = true := by
  cases s <;> rfl

theorem takeBytes_isPref (s : Filename) : ∀ i, takeBytes s i <+: s := by
  induction s with
  | nil => intro i; cases i <;> exact List.nil_prefix
  | cons c cs ih =>
    intro i
    cases i with
    | zero => exact List.nil_prefix
    | succ j =>
      unfold takeBytes
      split
      · exact List.cons_prefix_cons.mpr ⟨rfl, ih _⟩
      · exact List.nil_prefix

theorem utf8Len_takeBytes (s : Filename) :
    ∀ i, isCharBoundary s i = true → utf8Len (takeBytes s i) = i := by
  induction s with
  | nil =>
    intro i h
    cases i with
    | zero => rfl
    | succ j => simp [isCharBoundary] at h
  | cons c cs ih =>
    intro i h
    cases i with
    | zero => rfl
    | succ j =>
      unfold isCharBoundary at h
      unfold takeBytes
      split
      · next hle =>
        rw [utf8Len_cons, ih _ (by simpa [hle] using h)]
        omega
      · next hle => simp [hle] at h

theorem backOffToBoundary_le (s : Filename) : ∀ m, backOffToBoundary s m ≤ m := by
  intro m
  induction m with
  | zero => exact Nat.le_refl 0
  | succ k ih =>
    unfold backOffToBoundary
    split
    · exact Nat.le_refl _
    · exact Nat.le_trans ih (Nat.le_succ k)

theorem backOffToBoundary_isBoundary (s : Filename) :
    ∀ m, isCharBoundary s (backOffToBoundary s m) = true := by
  intro m
  induction m with
  | zero => exact isCharBoundary_zero s
  | succ k ih =>
    unfold backOffToBoundary
    split
    · next h => exact h
    · exact ih

theorem le_backOffToBoundary (s : Filename) (b : Nat)
    (hb : isCharBoundary s b = true) : ∀ m, b ≤ m → b ≤ backOffToBoundary s m := by
  intro m
  induction m with
  | zero => intro h; omega
  | succ k ih =>
    intro hbm
    unfold backOffToBoundary
    split
    · exact hbm
    · next hnb =>
      refine ih ?_
      rcases Nat.lt_or_ge b (k + 1) with h | h
      · omega
      · rw [Nat.le_antisymm hbm h] at hb
        exact absurd hb hnb

theorem boundary_exists_near (s : Filename) :
    ∀ m, m ≤ utf8Len s →
      ∃ b, isCharBoundary s b = true ∧ b ≤ m ∧ m ≤ b + 3 := by
  induction s with
  | nil =>
    intro m hm
    rw [utf8Len_nil] at hm
    exact ⟨0, isCharBoundary_zero [], by omega, by omega⟩
  | cons c cs ih =>
    intro m hm
    rcases Nat.lt_or_ge m (charBytes c) with hlt | hge
    · exact ⟨0, isCharBoundary_zero _, by omega,
        by have := charBytes_le_four c; omega⟩
    · rw [utf8Len_cons] at hm
      obtain ⟨b', hb', hble, hmle⟩ := ih (m - charBytes c) (by omega)
      refine ⟨charBytes c + b', ?_, by omega, by omega⟩
      have hpos := one_le_charBytes c
      obtain ⟨k, hk⟩ : ∃ k, charBytes c + b' = k + 1 :=
        ⟨charBytes c + b' - 1, by omega⟩
      rw [hk]
      unfold isCharBoundary
      have hle : charBytes c ≤ k + 1 := by omega
      simp only [hle, if_true]
      have : k + 1 - charBytes c = b' := by omega
      rw [this]
      exact hb'

theorem truncate_isPref (s : Filename) (m : Nat) :
    truncate_to_char_boundary s m <+: s := by
  unfold truncate_to_char_boundary
  split
  · exact List.prefix_refl s
  · exact takeBytes_isPref s _

theorem utf8Len_truncate (s : Filename) (m : Nat) :
    utf8Len (truncate_to_char_boundary s m) =
      if m ≥ utf8Len s then utf8Len s else backOffToBoundary s m := by
  unfold truncate_to_char_boundary
  split
  · rfl
  · exact utf8Len_takeBytes s _ (backOffToBoundary_isBoundary s m)

theorem utf8Len_truncate_le (s : Filename) (m : Nat) :
    utf8Len (truncate_to_char_boundary s m) ≤ m := by
  rw [utf8Len_truncate]
  split
  · next h => omega
  · exact backOffToBoundary_le s m

theorem le_utf8Len_truncate (s : Filename) (m : Nat) (h : m < utf8Len s) :
    m ≤ utf8Len (truncate_to_char_boundary s m) + 3 := by
  rw [utf8Len_truncate, if_neg (by omega)]
  obtain ⟨b, hb, hbm, hmb⟩ := boundary_exists_near s m (by omega)
  have := le_backOffToBoundary s b hb m hbm
  omega

/-! ### Lemmas: splitting at the last dot -/

theorem splitAtLastDot_none {s : Filename} (h : splitAtLastDot s = none) :
    '.' ∉ s := by
  induction s with
  | nil => simp
  | cons c cs ih =>
    unfold splitAtLastDot at h
    match hcs : splitAtLastDot cs with
    | some (st, ex) => rw [hcs] at h; exact absurd h (by simp)
    | none =>
      rw [hcs] at h
      by_cases hc : c = '.'
      · rw [if_pos hc] at h; exact absurd h (by simp)
      · rw [if_neg hc] at h
        simp only [List.mem_cons]
        rintro (h' | h')
        · exact hc h'.symm
        · exact ih hcs h'

theorem splitAtLastDot_eq_none {s : Filename} (h : '.' ∉ s) :
    splitAtLastDot s = none := by
  induction s with
  | nil => rfl
  | cons c cs ih =>
    simp only [List.mem_cons, not_or] at h
    unfold splitAtLastDot
    rw [ih h.2, if_neg (fun hc => h.1 hc.symm)]

theorem splitAtLastDot_some {s a b : Filename}
    (h : splitAtLastDot s = some (a, b)) : s = a ++ '.' :: b ∧ '.' ∉ b := by
  induction s generalizing a b with
  | nil => exact absurd h (by simp [splitAtLastDot])
  | cons c cs ih =>
    unfold splitAtLastDot at h
    match hcs : splitAtLastDot cs with
    | some (st, ex) =>
      rw [hcs] at h
      simp only [Option.some_inj, Prod.mk.injEq] at h
      obtain ⟨h1, h2⟩ := h
      obtain ⟨hst, hex⟩ := ih hcs
      subst h2
      refine ⟨?_, hex⟩
      rw [← h1, hst]
      rfl
    | none =>
      rw [hcs] at h
      by_cases hc : c = '.'
      · rw [if_pos hc] at h
        simp only [Option.some_inj, Prod.mk.injEq] at h
        subst hc
        rw [← h.1, ← h.2]
        exact ⟨rfl, splitAtLastDot_none hcs⟩
      · rw [if_neg hc] at h
        exact absurd h (by simp)

theorem splitAtLastDot_append {a b : Filename} (h : '.' ∉ b) :
    splitAtLastDot (a ++ '.' :: b) = some (a, b) := by
  induction a with
  | nil =>
    show splitAtLastDot ('.' :: b) = some ([], b)
    unfold splitAtLastDot
    rw [splitAtLastDot_eq_none h, if_pos rfl]
  | cons c a' ih =>
    show splitAtLastDot (c :: (a' ++ '.' :: b)) = some (c :: a', b)
    unfold splitAtLastDot
    rw [ih]

/-! ### Lemmas: hex encoding and SHA-1 digests -/

theorem hexDigit_spec : ∀ n < 16, charBytes (hexDigit n) = 1 ∧
    hexDigit n ≠ '.' ∧ hexDigit n ≠ '-' := by decide

theorem hexEncode_facts (bs : List Nat) :
    (hexEncode bs).length = 2 * bs.length ∧
    utf8Len (hexEncode bs) = 2 * bs.length ∧
    '.' ∉ hexEncode bs := by
  induction bs with
  | nil => exact ⟨rfl, rfl, by simp [hexEncode]⟩
  | cons b bs ih =>
    have h1 := hexDigit_spec (b / 16 % 16) (Nat.mod_lt _ (by omega))
    have h2 := hexDigit_spec (b % 16) (Nat.mod_lt _ (by omega))
    have hcons : hexEncode (b :: bs) =
        hexDigit (b / 16 % 16) :: hexDigit (b % 16) :: hexEncode bs := by
      simp [hexEncode]
    refine ⟨?_, ?_, ?_⟩
    · have hl := ih.1
      rw [hcons]
      simp only [List.length_cons]
      omega
    · rw [hcons, utf8Len_cons, utf8Len_cons, h1.1, h2.1, ih.2.1]
      simp only [List.length_cons]
      omega
    · rw [hcons]
      simp only [List.mem_cons, not_or]
      exact ⟨fun hc => h1.2.1 hc.symm, fun hc => h2.2.1 hc.symm, ih.2.2⟩

theorem digestBytes_length (t : Nat × Nat × Nat × Nat × Nat) :
    (digestBytes t).length = 20 := by
  obtain ⟨h0, h1, h2, h3, h4⟩ := t
  rfl

theorem sha1_of_data_length (data : List Nat) :
    (sha1_of_data data).length = 20 :=
  digestBytes_length _

/-! ### Lemmas: split_and_truncate, truncate_filename, normalize length -/

theorem split_and_truncate_ext_le (fname : Filename) (maxBytes : Nat) :
    utf8Len (split_and_truncate_filename fname maxBytes).2 ≤ 10 := by
  unfold split_and_truncate_filename
  exact utf8Len_truncate_le _ 10

theorem split_and_truncate_stem_le (fname : Filename) (maxBytes : Nat) :
    utf8Len (split_and_truncate_filename fname maxBytes).1 ≤
      maxBytes - utf8Len (split_and_truncate_filename fname maxBytes).2 - 1 := by
  unfold split_and_truncate_filename
  exact utf8Len_truncate_le _ _

theorem utf8Len_truncate_filename (fname : Filename) (maxBytes : Nat)
    (h : 10 < maxBytes) : utf8Len (truncate_filename fname maxBytes) ≤ maxBytes := by
  unfold truncate_filename
  split
  · next hle => exact hle
  · have hext := split_and_truncate_ext_le fname maxBytes
    have hstem := split_and_truncate_stem_le fname maxBytes
    rw [utf8Len_append, utf8Len_cons]
    have : charBytes '.' = 1 := rfl
    omega

theorem utf8Len_truncPass (s : Filename) :
    utf8Len (truncPass s).1 ≤ MAX_FILENAME_LENGTH := by
  unfold truncPass
  split
  · next h => exact h
  · exact utf8Len_truncate_filename _ _ (by norm_num [MAX_FILENAME_LENGTH])

theorem utf8Len_normalize_le (fname : Filename) :
    utf8Len (normalize_filename fname) ≤ MAX_FILENAME_LENGTH := by
  unfold normalize_filename normalize_filename_cow
  dsimp only
  exact utf8Len_truncPass _

/-! ### Lemmas: the hash-suffixed name -/

theorem add_hash_suffix_eq (fname : Filename) (hash : List Nat) :
    add_hash_suffix_to_file_stem fname hash =
      (split_and_truncate_filename fname 99).1 ++ '-' ::
        (hexEncode hash ++ '.' :: (split_and_truncate_filename fname 99).2) :=
  rfl

theorem split_and_truncate_of_dot {fname a b : Filename}
    (h : splitAtLastDot fname = some (a, b)) (m : Nat) :
    split_and_truncate_filename fname m =
      (truncate_to_char_boundary a
        (m - utf8Len (truncate_to_char_boundary b 10) - 1),
       truncate_to_char_boundary b 10) := by
  unfold split_and_truncate_filename
  rw [h]

theorem split_and_truncate_of_nodot {fname : Filename}
    (h : splitAtLastDot fname = none) (m : Nat) :
    split_and_truncate_filename fname m =
      (truncate_to_char_boundary fname (m - 1), []) := by
  unfold split_and_truncate_filename
  rw [h]
  rfl

/-- The central disequality: for any name of at most 120 UTF-8 bytes and a
20-byte digest, the hash-suffixed name is a different string (it would
otherwise have to be at least 137 bytes long). -/
theorem add_hash_suffix_ne (n : Filename) (hash : List Nat)
    (hlen : utf8Len n ≤ 120) (hhash : hash.length = 20) :
    add_hash_suffix_to_file_stem n hash ≠ n := by
  intro heq
  obtain ⟨hxlen, hxutf, hxdot⟩ := hexEncode_facts hash
  rw [add_hash_suffix_eq] at heq
  match hsplit : splitAtLastDot n with
  | none =>
    -- the suffixed name contains a dot, a dot-free name does not
    have hdot : '.' ∈ n := by
      rw [← heq]
      simp
    exact splitAtLastDot_none hsplit hdot
  | some (a, b) =>
    obtain ⟨hn, hbdot⟩ := splitAtLastDot_some hsplit
    rw [split_and_truncate_of_dot hsplit] at heq
    set ext' := truncate_to_char_boundary b 10 with hext'
    set L := 99 - utf8Len ext' - 1 with hL
    set stem' := truncate_to_char_boundary a L with hstem'
    have hed : '.' ∉ ext' := fun hm => hbdot ((truncate_isPref b 10).subset hm)
    have hre : stem' ++ '-' :: (hexEncode hash ++ '.' :: ext') =
        (stem' ++ '-' :: hexEncode hash) ++ '.' :: ext' := by simp
    rw [hre, hn] at heq
    have hsp := @splitAtLastDot_append (stem' ++ '-' :: hexEncode hash) ext' hed
    rw [heq, splitAtLastDot_append hbdot] at hsp
    simp only [Option.some_inj, Prod.mk.injEq] at hsp
    obtain ⟨ha, hb⟩ := hsp
    -- byte lengths
    have hdash : charBytes '-' = 1 := rfl
    have hadot : charBytes '.' = 1 := rfl
    have haLen : utf8Len a = utf8Len stem' + 41 := by
      rw [ha, utf8Len_append, utf8Len_cons, hdash, hxutf, hhash]
    have hnLen : utf8Len n = utf8Len a + 1 + utf8Len b := by
      rw [hn, utf8Len_append, utf8Len_cons, hadot]
      omega
    have hbe : utf8Len b = utf8Len ext' := by rw [hb]
    have he10 : utf8Len ext' ≤ 10 := hext' ▸ utf8Len_truncate_le b 10
    rcases Nat.lt_or_ge L (utf8Len a) with hcase | hcase
    · have hlow := le_utf8Len_truncate a L hcase
      rw [← hstem'] at hlow
      omega
    · have : stem' = a := by
        rw [hstem', truncate_to_char_boundary, if_pos hcase]
      rw [this] at haLen
      omega

/-! ### Lemmas: folder writes and the unique-name writer -/

theorem fsWrite_self (f : Folder) (n : Filename) (d : List Nat) :
    fsWrite f n d n = some d := by
  simp [fsWrite]

theorem fsWrite_other (f : Folder) (n : Filename) (d : List Nat) {m : Filename}
    (h : m ≠ n) : fsWrite f n d m = f m := by
  simp [fsWrite, h]

theorem add_unique_no_file {folder : Folder} {desired : Filename}
    (data sha1 : List Nat)
    (h : folder (normalize_filename desired) = none) :
    add_data_to_folder_uniquely folder desired data sha1 =
      (fsWrite folder (normalize_filename desired) data,
        normalize_filename desired) := by
  unfold add_data_to_folder_uniquely existing_file_sha1
  dsimp only
  rw [h]
  rfl

theorem add_unique_same {folder : Folder} {desired : Filename}
    (data : List Nat) {sha1 d : List Nat}
    (h : folder (normalize_filename desired) = some d)
    (hs : sha1_of_data d = sha1) :
    add_data_to_folder_uniquely folder desired data sha1 =
      (folder, normalize_filename desired) := by
  unfold add_data_to_folder_uniquely existing_file_sha1
  dsimp only
  rw [h, Option.map_some']
  dsimp only
  rw [if_pos hs]

theorem add_unique_collision {folder : Folder} {desired : Filename}
    (data : List Nat) {sha1 d : List Nat}
    (h : folder (normalize_filename desired) = some d)
    (hs : sha1_of_data d ≠ sha1) :
    add_data_to_folder_uniquely folder desired data sha1 =
      (fsWrite folder
        (add_hash_suffix_to_file_stem (normalize_filename desired) sha1) data,
       add_hash_suffix_to_file_stem (normalize_filename desired) sha1) := by
  unfold add_data_to_folder_uniquely existing_file_sha1
  dsimp only
  rw [h, Option.map_some']
  dsimp only
  rw [if_neg hs]

/-- Whatever branch the unique-name writer takes, after the call the
returned name holds content whose digest is the digest that was passed
in (when that digest is the data's own digest). -/
theorem add_unique_target (folder : Folder) (desired : Filename)
    (data : List Nat) :
    ∃ d, (add_data_to_folder_uniquely folder desired data
            (sha1_of_data data)).1
          ((add_data_to_folder_uniquely folder desired data
            (sha1_of_data data)).2) = some d ∧
        sha1_of_data d = sha1_of_data data := by
  unfold add_data_to_folder_uniquely existing_file_sha1
  dsimp only
  generalize normalize_filename desired = n
  match hf : folder n with
  | none => exact ⟨data, fsWrite_self _ _ _, rfl⟩
  | some d0 =>
    rw [Option.map_some']
    dsimp only
    by_cases hs : sha1_of_data d0 = sha1_of_data data
    · rw [if_pos hs]
      exact ⟨d0, hf, hs⟩
    · rw [if_neg hs]
      exact ⟨data, fsWrite_self _ _ _, rfl⟩

/-! ### Lemmas: the `Cow` state of normalization -/

theorem nfcPass_untouched {s : Filename} (h : (nfcPass s).2 = false) :
    (nfcPass s).1 = s := by
  unfold nfcPass at *
  split at h
  · next hc => simp [hc]
  · simp at h

theorem stripPass_untouched {s : Filename} (h : (stripPass s).2 = false) :
    (stripPass s).1 = s := by
  unfold stripPass at *
  split at h
  · simp at h
  · next hc => simp [hc]

theorem devicePass_untouched {s : Filename} (h : (devicePass s).2 = false) :
    (devicePass s).1 = s := by
  unfold devicePass at *
  split at h
  · simp at h
  · next heq => simp [heq]

theorem truncPass_untouched {s : Filename} (h : (truncPass s).2 = false) :
    (truncPass s).1 = s := by
  unfold truncPass at *
  split at h
  · next hc => simp [hc]
  · simp at h

/-- If no normalization step allocated (`Cow::Borrowed` all the way),
the normalized name is the input itself. -/
theorem normalize_cow_untouched {fname : Filename}
    (h : (normalize_filename_cow fname).2 = false) :
    normalize_filename fname = fname := by
  unfold normalize_filename normalize_filename_cow at *
  simp only [Bool.or_eq_false_iff] at h
  obtain ⟨⟨⟨h1, h2⟩, h3⟩, h4⟩ := h
  rw [truncPass_untouched h4, devicePass_untouched h3,
    stripPass_untouched h2, nfcPass_untouched h1]

/-- Contrapositive: a name the normalizer changes has the `Cow::Owned`
flag set. -/
theorem normalize_cow_changed {fname : Filename}
    (h : normalize_filename fname ≠ fname) :
    (normalize_filename_cow fname).2 = true := by
  rcases Bool.eq_false_or_eq_true (normalize_filename_cow fname).2 with ht | hf
  · exact ht
  · exact absurd (normalize_cow_untouched hf) h

theorem isCharBoundary_utf8Len (s : Filename) :
    isCharBoundary s (utf8Len s) = true := by
  induction s with
  | nil => rfl
  | cons c cs ih =>
    have h1 := one_le_charBytes c
    rw [utf8Len_cons]
    obtain ⟨k, hk⟩ : ∃ k, charBytes c + utf8Len cs = k + 1 :=
      ⟨charBytes c + utf8Len cs - 1, by omega⟩
    rw [hk]
    unfold isCharBoundary
    have hle : charBytes c ≤ k + 1 := by omega
    simp only [hle, if_true]
    have : k + 1 - charBytes c = utf8Len cs := by omega
    rw [this]
    exact ih

theorem truncate_boundary (s : Filename) (m : Nat) :
    isCharBoundary s (utf8Len (truncate_to_char_boundary s m)) = true := by
  rw [utf8Len_truncate]
  split
  · exact isCharBoundary_utf8Len s
  · exact backOffToBoundary_isBoundary s m

/-! ### The claims -/

/-- Claim C5 (refuted; the code violates its own documented NFC
invariant): `normalize_filename` is NOT idempotent.  On the input
`a [ U+0300` (letter a, bracket, combining grave accent) the input is NFC
(the bracket blocks composition), the bracket is then removed, and the
output `a U+0300` is no longer NFC; a second normalization composes it to
`à` (U+00E0). -/
theorem C5_normalize_not_idempotent :
    normalize_filename (normalize_filename ['a', '[', graveAccent]) ≠
      normalize_filename ['a', '[', graveAccent] ∧
    normalize_filename ['a', '[', graveAccent] = ['a', graveAccent] ∧
    normalize_filename ['a', graveAccent] = [aGrave] := by decide

/-- Claim C6 (refuted; the code's doc comment promises "The filename is
normalized to NFC"): the output of `normalize_filename` is not always
NFC, because disallowed characters are removed AFTER the NFC pass,
which can make a base letter and a combining mark adjacent. -/
theorem C6_normalize_output_not_nfc :
    normalize_filename ['a', '[', graveAccent] = ['a', graveAccent] ∧
    is_nfc ['a', graveAccent] = false ∧
    nfc ['a', graveAccent] = [aGrave] := by decide

/-- Claim C7: the normalized filename is at most 120 UTF-8 bytes, and
byte-budget truncation returns a whole-character prefix whose byte length
is within the budget and a valid character boundary of the input. -/
theorem C7_length_invariant :
    ∀ x : Filename, utf8Len (normalize_filename x) ≤ 120 ∧
      ∀ (s : Filename) (m : Nat),
        truncate_to_char_boundary s m <+: s ∧
        utf8Len (truncate_to_char_boundary s m) ≤ m ∧
        isCharBoundary s (utf8Len (truncate_to_char_boundary s m)) = true :=
  fun x => ⟨utf8Len_normalize_le x,
    fun s m => ⟨truncate_isPref s m, utf8Len_truncate_le s m,
      truncate_boundary s m⟩⟩

/-- Claim C8 (refuted): the reassembly dot is NOT omitted when the
extension is empty.  An extensionless over-long name normalizes to a name
ending in `.`, and the hash-suffixed form of an extensionless name ends
in `.` as well. -/
theorem C8_counterexample :
    '.' ∉ List.replicate 121 'x' ∧
    (normalize_filename (List.replicate 121 'x')).getLast? = some '.' ∧
    (add_hash_suffix_to_file_stem ('f' :: 'o' :: 'o' :: [])
      (sha1_of_data (asciiBytes "hello"))).getLast? = some '.' := by decide

/-- Claim C8 (amended): when the extension is empty the separating dot is
still inserted: truncating an over-long extensionless name appends `.`,
and hash-suffix derivation on an extensionless name ends in `.`. -/
theorem C8_dot_always_inserted (fname : Filename) (hdot : '.' ∉ fname) :
    (∀ maxBytes, maxBytes < utf8Len fname →
      truncate_filename fname maxBytes =
        truncate_to_char_boundary fname (maxBytes - 1) ++ ['.']) ∧
    ∀ hash, add_hash_suffix_to_file_stem fname hash =
      truncate_to_char_boundary fname 98 ++ '-' :: (hexEncode hash ++ ['.']) := by
  have hsp := splitAtLastDot_eq_none hdot
  constructor
  · intro maxBytes hlen
    unfold truncate_filename
    rw [if_neg (by omega), split_and_truncate_of_nodot hsp]
  · intro hash
    rw [add_hash_suffix_eq, split_and_truncate_of_nodot hsp]

/-- Witness for C8 (amended) at concrete inputs. -/
theorem C8_dot_witness :
    truncate_filename (List.replicate 121 'x') 120 =
      truncate_to_char_boundary (List.replicate 121 'x') 119 ++ ['.'] ∧
    add_hash_suffix_to_file_stem (List.replicate 121 'x')
        (sha1_of_data (asciiBytes "hello")) =
      truncate_to_char_boundary (List.replicate 121 'x') 98 ++ '-' ::
        (hexEncode (sha1_of_data (asciiBytes "hello")) ++ ['.']) := by
  have h := C8_dot_always_inserted (List.replicate 121 'x') (by decide)
  exact ⟨h.1 120 (by decide), h.2 (sha1_of_data (asciiBytes "hello"))⟩

/-- Claim C9: the hash-suffixed name is at most 140 UTF-8 bytes (the stem
and extension are capped at a combined 98 bytes before the 42-byte
`-<40 hex>.` appendix), and a 120-byte extensionless input yields exactly
140 bytes, exceeding the 120-byte filename limit. -/
theorem C9_hash_suffix_length (fname : Filename) (hash : List Nat)
    (hhash : hash.length = 20) :
    utf8Len (add_hash_suffix_to_file_stem fname hash) ≤ 140 ∧
    utf8Len (add_hash_suffix_to_file_stem (List.replicate 120 'x') hash) = 140 ∧
    120 < utf8Len (add_hash_suffix_to_file_stem (List.replicate 120 'x') hash) := by
  obtain ⟨hxlen, hxutf, hxdot⟩ := hexEncode_facts hash
  have h1 : charBytes '-' = 1 := rfl
  have h2 : charBytes '.' = 1 := rfl
  have hbound : ∀ g : Filename, utf8Len (add_hash_suffix_to_file_stem g hash) =
      utf8Len (split_and_truncate_filename g 99).1 + 42 +
        utf8Len (split_and_truncate_filename g 99).2 := by
    intro g
    rw [add_hash_suffix_eq, utf8Len_append, utf8Len_cons, utf8Len_append,
      utf8Len_cons, hxutf, hhash]
    omega
  have hconc : split_and_truncate_filename (List.replicate 120 'x') 99 =
      (List.replicate 98 'x', []) := by decide
  have hc98 : utf8Len (List.replicate 98 'x') = 98 := by decide
  refine ⟨?_, ?_, ?_⟩
  · rw [hbound fname]
    have he := split_and_truncate_ext_le fname 99
    have hs := split_and_truncate_stem_le fname 99
    omega
  · rw [hbound, hconc]
    rw [show utf8Len ([] : Filename) = 0 from rfl, hc98]
  · rw [hbound, hconc]
    rw [show utf8Len ([] : Filename) = 0 from rfl, hc98]
    omega

/-- Witness for C9 at a concrete name and digest. -/
theorem C9_witness :
    utf8Len (add_hash_suffix_to_file_stem (("test.jpg").toList)
      (sha1_of_data (asciiBytes "hello"))) ≤ 140 ∧
    utf8Len (add_hash_suffix_to_file_stem (List.replicate 120 'x')
      (sha1_of_data (asciiBytes "hello"))) = 140 := by
  have h := C9_hash_suffix_length (("test.jpg").toList)
    (sha1_of_data (asciiBytes "hello")) (sha1_of_data_length _)
  exact ⟨h.1, h.2.1⟩

/-- Claim C10: the reader returns `none` (not an error) for a missing
file, the full contents for an existing file, and propagates every I/O
failure other than `NotFound`. -/
theorem C10_reader (folder : Folder) (fname : Filename) :
    (folder fname = none → data_for_file folder fname = Except.ok none) ∧
    (∀ d, folder fname = some d →
      data_for_file folder fname = Except.ok (some d)) ∧
    (∀ e, e ≠ IoErrorKind.notFound →
      data_for_file_from (Except.error e) = Except.error e) := by
  refine ⟨?_, ?_, ?_⟩
  · intro h
    unfold data_for_file openFile
    rw [h]
    rfl
  · intro d h
    unfold data_for_file openFile
    rw [h]
    rfl
  · intro e he
    unfold data_for_file_from
    dsimp only
    rw [if_neg he]

/-- Witness for C10: a missing file reads as `ok none`, an existing file
reads back its bytes, and a permission-style error propagates. -/
theorem C10_witness :
    data_for_file (fun _ => none) (("a.jpg").toList) = Except.ok none ∧
    data_for_file (fsWrite (fun _ => none) (("a.jpg").toList)
        (asciiBytes "hi")) (("a.jpg").toList) =
      Except.ok (some (asciiBytes "hi")) ∧
    data_for_file_from (Except.error IoErrorKind.otherError) =
      Except.error IoErrorKind.otherError := by
  refine ⟨(C10_reader (fun _ => none) (("a.jpg").toList)).1 rfl,
    (C10_reader (fsWrite (fun _ => none) (("a.jpg").toList)
      (asciiBytes "hi")) (("a.jpg").toList)).2.1 (asciiBytes "hi")
      (fsWrite_self _ _ _),
    (C10_reader (fun _ => none) (("a.jpg").toList)).2.2
      IoErrorKind.otherError (by decide)⟩

/-- Claim C1 (refuted): on a collision, the payload is written under the
hash-suffixed name while the returned record's `fname` stays the
normalized name.  Concretely: with `foo.jpg` (bytes of "hello") already
on disk, ingesting `foo[.jpg` with different bytes writes
`foo-<hex>.jpg`, but the record reports `fname = foo.jpg`, which still
holds the OLD content. -/
theorem C1_counterexample :
    (add_file_from_ankiweb
        (fsWrite (fun _ => none) (("foo.jpg").toList) (asciiBytes "hello"))
        (("foo[.jpg").toList) (asciiBytes "hello1")).2.fname =
      ("foo.jpg").toList ∧
    (add_file_from_ankiweb
        (fsWrite (fun _ => none) (("foo.jpg").toList) (asciiBytes "hello"))
        (("foo[.jpg").toList) (asciiBytes "hello1")).1
      (("foo-88fdd585121a4ccb3d1540527aee53a77c77abb8.jpg").toList) =
      some (asciiBytes "hello1") ∧
    (add_file_from_ankiweb
        (fsWrite (fun _ => none) (("foo.jpg").toList) (asciiBytes "hello"))
        (("foo[.jpg").toList) (asciiBytes "hello1")).1 (("foo.jpg").toList) =
      some (asciiBytes "hello") ∧
    ("foo.jpg").toList ≠
      ("foo-88fdd585121a4ccb3d1540527aee53a77c77abb8.jpg").toList := by
  decide

/-- Claim C1 (amended): the record's `final_name` field is always the
normalized name (not necessarily the written filename); the payload's
write target is `final_name` when `renamed_from` is none and the value
stored in `renamed_from` otherwise (which carries any hash suffix), and
after the call that target holds content whose digest equals the
payload's digest. -/
theorem C1_final_name_amended (folder : Folder) (fname : Filename)
    (data : List Nat) :
    (add_file_from_ankiweb folder fname data).2.fname =
      normalize_filename fname ∧
    ∃ d, (add_file_from_ankiweb folder fname data).1
        (((add_file_from_ankiweb folder fname data).2.renamed_from).getD
          ((add_file_from_ankiweb folder fname data).2.fname)) = some d ∧
      sha1_of_data d = sha1_of_data data := by
  unfold add_file_from_ankiweb normalize_filename
  dsimp only
  generalize normalize_filename_cow fname = p
  obtain ⟨N, flag⟩ := p
  cases flag with
  | true =>
    dsimp only
    rw [if_pos rfl]
    constructor
    · rfl
    · dsimp only [Option.getD]
      exact add_unique_target folder fname data
  | false =>
    dsimp only
    rw [if_neg (by decide)]
    constructor
    · rfl
    · dsimp only [Option.getD]
      exact ⟨data, fsWrite_self _ _ _, rfl⟩

/-- Claim C2 (refuted): for a name the normalizer changes, `renamed_from`
is NOT the original unnormalized name; the code stores the name the
writer actually used.  Ingesting `foo[.jpg` yields
`renamed_from = some "foo.jpg"`, not `some "foo[.jpg"`. -/
theorem C2_counterexample :
    normalize_filename (("foo[.jpg").toList) ≠ ("foo[.jpg").toList ∧
    (add_file_from_ankiweb (fun _ => none) (("foo[.jpg").toList)
      (asciiBytes "hello")).2.renamed_from = some (("foo.jpg").toList) ∧
    ("foo.jpg").toList ≠ ("foo[.jpg").toList := by
  decide

/-- Claim C2 (amended): when `normalize(name)` differs from `name`,
`renamed_from` is `Some` of the name the unique-name writer actually
used (the normalized, possibly hash-suffixed, on-disk name) — not the
original name; `renamed_from` is `none` exactly when the normalizer
returned the input unchanged (`Cow::Borrowed`). -/
theorem C2_renamed_from_amended (folder : Folder) (fname : Filename)
    (data : List Nat) :
    (normalize_filename fname ≠ fname →
      (add_file_from_ankiweb folder fname data).2.renamed_from =
        some (add_data_to_folder_uniquely folder fname data
          (sha1_of_data data)).2) ∧
    ((normalize_filename_cow fname).2 = false →
      (add_file_from_ankiweb folder fname data).2.renamed_from = none) := by
  constructor
  · intro h
    have hc := normalize_cow_changed h
    unfold add_file_from_ankiweb
    dsimp only
    rw [hc, if_pos rfl]
  · intro h
    unfold add_file_from_ankiweb
    dsimp only
    rw [h, if_neg (by decide)]

/-- Witness for C2 (amended): a changed name reports the writer's name;
an unchanged name reports none. -/
theorem C2_renamed_from_witness :
    (add_file_from_ankiweb (fun _ => none) (("foo[.jpg").toList)
      (asciiBytes "hello")).2.renamed_from =
      some ((add_data_to_folder_uniquely (fun _ => none)
        (("foo[.jpg").toList) (asciiBytes "hello")
        (sha1_of_data (asciiBytes "hello"))).2) ∧
    (add_file_from_ankiweb (fun _ => none) (("foo.jpg").toList)
      (asciiBytes "hello")).2.renamed_from = none :=
  ⟨(C2_renamed_from_amended (fun _ => none) (("foo[.jpg").toList)
      (asciiBytes "hello")).1 (by decide),
   (C2_renamed_from_amended (fun _ => none) (("foo.jpg").toList)
      (asciiBytes "hello")).2 (by decide)⟩

/-- Claim C3: starting from a folder with no file at the normalized name,
adding the same (name, data, digest-of-data) twice writes the file once
under the normalized name; the second call changes nothing and returns
the same name; no other file is touched. -/
theorem C3_dedup_noop (f0 : Folder) (name : Filename) (data : List Nat)
    (h0 : f0 (normalize_filename name) = none) :
    (add_data_to_folder_uniquely f0 name data (sha1_of_data data)).2 =
      normalize_filename name ∧
    (add_data_to_folder_uniquely
        (add_data_to_folder_uniquely f0 name data (sha1_of_data data)).1
        name data (sha1_of_data data)).2 =
      (add_data_to_folder_uniquely f0 name data (sha1_of_data data)).2 ∧
    (∀ m, (add_data_to_folder_uniquely
        (add_data_to_folder_uniquely f0 name data (sha1_of_data data)).1
        name data (sha1_of_data data)).1 m =
      (add_data_to_folder_uniquely f0 name data (sha1_of_data data)).1 m) ∧
    (add_data_to_folder_uniquely f0 name data (sha1_of_data data)).1
      (normalize_filename name) = some data ∧
    (∀ m, m ≠ normalize_filename name →
      (add_data_to_folder_uniquely f0 name data (sha1_of_data data)).1 m =
        f0 m) := by
  unfold add_data_to_folder_uniquely existing_file_sha1
  dsimp only
  generalize hN : normalize_filename name = N
  rw [hN] at h0
  rw [h0, Option.map_none']
  dsimp only
  rw [fsWrite_self, Option.map_some']
  dsimp only
  rw [if_pos rfl]
  refine ⟨rfl, rfl, fun m => rfl, rfl, fun m hm => ?_⟩
  exact fsWrite_other _ _ _ hm

/-- Witness for C3 at a concrete folder, name and data. -/
theorem C3_dedup_noop_witness :
    (add_data_to_folder_uniquely (fun _ => none) (("test.mp3").toList)
      (asciiBytes "hello") (sha1_of_data (asciiBytes "hello"))).2 =
      ("test.mp3").toList ∧
    (add_data_to_folder_uniquely
        (add_data_to_folder_uniquely (fun _ => none) (("test.mp3").toList)
          (asciiBytes "hello") (sha1_of_data (asciiBytes "hello"))).1
        (("test.mp3").toList) (asciiBytes "hello")
        (sha1_of_data (asciiBytes "hello"))).1 (("test.mp3").toList) =
      some (asciiBytes "hello") := by
  have hn : normalize_filename (("test.mp3").toList) = ("test.mp3").toList := by
    decide
  have h := C3_dedup_noop (fun _ => none) (("test.mp3").toList)
    (asciiBytes "hello") rfl
  constructor
  · rw [h.1, hn]
  · have h3 := h.2.2.1 (("test.mp3").toList)
    have h4 := h.2.2.2.1
    rw [hn] at h4
    exact h3.trans h4

/-- Claim C4: writing (name, A) then (name, B) into an empty folder, with
the digests of A and B differing (the spec's notion of "content
differs"), leaves exactly two files: the normalized name holding A and
the hash-suffixed name holding B; the suffix is the 40-character hex
encoding of B's digest, and the second call returns the suffixed name. -/
theorem C4_collision_suffix (name : Filename) (A B : List Nat)
    (hAB : sha1_of_data A ≠ sha1_of_data B) :
    (add_data_to_folder_uniquely (fun _ => none) name A (sha1_of_data A)).2 =
      normalize_filename name ∧
    (add_data_to_folder_uniquely
        (add_data_to_folder_uniquely (fun _ => none) name A
          (sha1_of_data A)).1 name B (sha1_of_data B)).2 =
      add_hash_suffix_to_file_stem (normalize_filename name)
        (sha1_of_data B) ∧
    add_hash_suffix_to_file_stem (normalize_filename name) (sha1_of_data B) ≠
      normalize_filename name ∧
    (add_data_to_folder_uniquely
        (add_data_to_folder_uniquely (fun _ => none) name A
          (sha1_of_data A)).1 name B (sha1_of_data B)).1
      (normalize_filename name) = some A ∧
    (add_data_to_folder_uniquely
        (add_data_to_folder_uniquely (fun _ => none) name A
          (sha1_of_data A)).1 name B (sha1_of_data B)).1
      (add_hash_suffix_to_file_stem (normalize_filename name)
        (sha1_of_data B)) = some B ∧
    (∀ m, m ≠ normalize_filename name →
      m ≠ add_hash_suffix_to_file_stem (normalize_filename name)
        (sha1_of_data B) →
      (add_data_to_folder_uniquely
        (add_data_to_folder_uniquely (fun _ => none) name A
          (sha1_of_data A)).1 name B (sha1_of_data B)).1 m = none) ∧
    (hexEncode (sha1_of_data B)).length = 40 ∧
    add_hash_suffix_to_file_stem (normalize_filename name) (sha1_of_data B) =
      (split_and_truncate_filename (normalize_filename name) 99).1 ++ '-' ::
        (hexEncode (sha1_of_data B) ++ '.' ::
          (split_and_truncate_filename (normalize_filename name) 99).2) := by
  have hne := add_hash_suffix_ne (normalize_filename name) (sha1_of_data B)
    (utf8Len_normalize_le name) (sha1_of_data_length B)
  unfold add_data_to_folder_uniquely existing_file_sha1
  dsimp only
  generalize hN : normalize_filename name = N
  rw [hN] at hne
  rw [Option.map_none']
  dsimp only
  rw [fsWrite_self, Option.map_some']
  dsimp only
  rw [if_neg hAB]
  dsimp only
  refine ⟨rfl, rfl, hne, ?_, fsWrite_self _ _ _, fun m hm1 hm2 => ?_, ?_, ?_⟩
  · rw [fsWrite_other _ _ _ (Ne.symm hne)]
    exact fsWrite_self _ _ _
  · rw [fsWrite_other _ _ _ hm2, fsWrite_other _ _ _ hm1]
  · have hx := (hexEncode_facts (sha1_of_data B)).1
    rw [sha1_of_data_length B] at hx
    omega
  · exact add_hash_suffix_eq _ _

/-- Witness for C4: the repo test scenario ("hello" then "hello1" under
`test.mp3`), ending in the documented suffixed name. -/
theorem C4_collision_suffix_witness :
    sha1_of_data (asciiBytes "hello") ≠ sha1_of_data (asciiBytes "hello1") ∧
    (add_data_to_folder_uniquely
        (add_data_to_folder_uniquely (fun _ => none) (("test.mp3").toList)
          (asciiBytes "hello") (sha1_of_data (asciiBytes "hello"))).1
        (("test.mp3").toList) (asciiBytes "hello1")
        (sha1_of_data (asciiBytes "hello1"))).2 =
      add_hash_suffix_to_file_stem
        (normalize_filename (("test.mp3").toList))
        (sha1_of_data (asciiBytes "hello1")) ∧
    add_hash_suffix_to_file_stem (normalize_filename (("test.mp3").toList))
        (sha1_of_data (asciiBytes "hello1")) =
      ("test-88fdd585121a4ccb3d1540527aee53a77c77abb8.mp3").toList := by
  have hAB : sha1_of_data (asciiBytes "hello") ≠
      sha1_of_data (asciiBytes "hello1") := by decide
  refine ⟨hAB, ?_, by decide⟩
  exact (C4_collision_suffix (("test.mp3").toList) (asciiBytes "hello")
    (asciiBytes "hello1") hAB).2.1

end MediaFiles
